import Mathlib

/- Shallow embedding of the CodeArchitect AI chunking / embedding pipeline:
   src/core/chunk_strategy.py (SmartCodeChunker),
   src/core/vectorizer.py (CodeVectorizer),
   src/core/local_embeddings.py (LocalEmbeddings),
   config/config_schema.py (Config.validate).
   Python strings are modeled as lists of characters (`PStr`). -/

abbrev PStr := List Char

/- Python `str.isspace` on the ASCII whitespace characters that `str.strip`
   removes. -/
def pyIsSpace (c : Char) : Bool :=
  c = ' ' || c = '\t' || c = '\n' || c = '\r' || c = '\x0b' || c = '\x0c'

/- Python `s.lstrip()`. -/
def pyLstrip (s : PStr) : PStr := s.dropWhile pyIsSpace

/- Python `s.rstrip()`. -/
def pyRstrip (s : PStr) : PStr := (s.reverse.dropWhile pyIsSpace).reverse

/- Python `s.strip()`. -/
def pyStrip (s : PStr) : PStr := pyRstrip (pyLstrip s)

/- Decimal digits of n, most significant first, via structural recursion on a
   fuel bound (fuel ≥ n suffices since n / 10 < n for n ≥ 1). -/
def pyStrDigits : Nat → Nat → PStr
  | 0, _ => []
  | fuel + 1, n =>
      if n = 0 then []
      else pyStrDigits fuel (n / 10) ++ [Char.ofNat (48 + n % 10)]

/- Python `str(n)` for a natural number (decimal digits). -/
def pyStr (n : Nat) : PStr :=
  if n = 0 then ['0'] else pyStrDigits (n + 1) n

/- Python `sep.join(xs)`. -/
def pyJoin (sep : PStr) (xs : List PStr) : PStr := List.intercalate sep xs

/- Python `content.split('\n\n')`: split on non-overlapping occurrences of two
   consecutive newlines, scanning left to right, keeping empty segments. -/
def splitBlankAux (acc : PStr) : PStr → List PStr
  | '\n' :: '\n' :: rest => acc.reverse :: splitBlankAux [] rest
  | c :: rest => splitBlankAux (c :: acc) rest
  | [] => [acc.reverse]

def splitBlank (s : PStr) : List PStr := splitBlankAux [] s

/- Python `content.split('\n')` is `List.splitOn '\n'` (empty segments kept). -/
def splitLines (s : PStr) : List PStr := s.splitOn '\n'

/- The metadata dict as far as the chunker reads or writes it.  Fields read
   with `metadata.get(key, default)` in the source are Options here. -/
structure Metadata where
  file_path : Option PStr
  layer : Option PStr
  feature : Option PStr
  extension : Option PStr
  chunk_index : Option Nat
  chunk_size : Option Nat
deriving DecidableEq

/- A chunk dict `{'content': ..., 'metadata': ...}`. -/
structure Chunk where
  content : PStr
  metadata : Metadata
deriving DecidableEq

/- SmartCodeChunker(chunk_size, overlap). -/
structure ChunkerConfig where
  chunk_size : Nat
  overlap : Nat

/- The header block of `_create_chunk`, up to and including the 1-based chunk
   number; the full f-string is this followed by a blank line, the accumulated
   content, and a trailing newline. -/
def headerText (md : Metadata) (index : Nat) : PStr :=
  ("# File: ").data ++ md.file_path.getD (("unknown").data)
    ++ ("\n# Layer: ").data ++ md.layer.getD (("unknown").data)
    ++ ("\n# Feature: ").data ++ md.feature.getD (("N/A").data)
    ++ ("\n# Chunk: ").data ++ pyStr (index + 1)

/- `SmartCodeChunker._create_chunk(content, metadata, index)`. -/
def createChunk (content : PStr) (md : Metadata) (index : Nat) : Chunk :=
  { content := pyStrip (headerText md index ++ ['\n', '\n'] ++ content ++ ['\n'])
    metadata := { md with chunk_index := some index
                          chunk_size := some content.length } }

/- `SmartCodeChunker._split_by_constructs`: strip blank-line-separated blocks,
   keep the non-empty ones, and fall back to the whole content. -/
def jsBlocks (content : PStr) : List PStr :=
  let blocks := ((splitBlank content).map pyStrip).filter (fun b => !b.isEmpty)
  if blocks.isEmpty then [content] else blocks

/- The block loop of `_chunk_javascript`.  On a split with overlap > 0 the
   source sets current_chunk = [current_chunk[-1], block] and then recomputes
   current_size = len(current_chunk[-1]) + block_size, where current_chunk[-1]
   is already the new block, so the size is counted as 2 * len(block). -/
def chunkJsLoop (cfg : ChunkerConfig) (md : Metadata) :
    List PStr → List PStr → Nat → List Chunk → List Chunk
  | [], currentChunk, _, chunks =>
      if currentChunk.isEmpty then chunks
      else chunks ++ [createChunk (pyJoin ['\n', '\n'] currentChunk) md chunks.length]
  | block :: rest, currentChunk, currentSize, chunks =>
      if currentSize + block.length > cfg.chunk_size && !currentChunk.isEmpty then
        let chunks1 := chunks ++ [createChunk (pyJoin ['\n', '\n'] currentChunk) md chunks.length]
        if cfg.overlap > 0 then
          chunkJsLoop cfg md rest [currentChunk.getLastD [], block]
            (block.length + block.length) chunks1
        else
          chunkJsLoop cfg md rest [block] block.length chunks1
      else
        chunkJsLoop cfg md rest (currentChunk ++ [block])
          (currentSize + block.length) chunks

/- `SmartCodeChunker._chunk_javascript`. -/
def chunkJavascript (cfg : ChunkerConfig) (content : PStr) (md : Metadata) :
    List Chunk :=
  let chunks := chunkJsLoop cfg md (jsBlocks content) [] 0 []
  if chunks.isEmpty then [createChunk content md 0] else chunks

/- Models `max(1, int(overlap / max(1, current_size / len(current_chunk))))`
   from `_chunk_generic`.  Python evaluates the inner division on floats; the
   model uses the exact rational value, whose floor is `overlap * n / cs`. -/
def overlapLineCount (overlap currentSize n : Nat) : Nat :=
  if currentSize ≤ n then max 1 overlap
  else max 1 (overlap * n / currentSize)

/- Python `l[-k:]` for k ≥ 1: the last min(k, len(l)) elements. -/
def pyTakeLast (k : Nat) (l : List α) : List α := l.drop (l.length - k)

def sumLens (l : List PStr) : Nat := (l.map List.length).sum

/- The line loop of `_chunk_generic`. -/
def chunkGenLoop (cfg : ChunkerConfig) (md : Metadata) :
    List PStr → List PStr → Nat → List Chunk → List Chunk
  | [], currentChunk, _, chunks =>
      if currentChunk.isEmpty then chunks
      else chunks ++ [createChunk (pyJoin ['\n'] currentChunk) md chunks.length]
  | line :: rest, currentChunk, currentSize, chunks =>
      if currentSize + line.length > cfg.chunk_size && !currentChunk.isEmpty then
        let chunks1 := chunks ++ [createChunk (pyJoin ['\n'] currentChunk) md chunks.length]
        let k := overlapLineCount cfg.overlap currentSize currentChunk.length
        let newCurrent := pyTakeLast k currentChunk ++ [line]
        chunkGenLoop cfg md rest newCurrent (sumLens newCurrent) chunks1
      else
        chunkGenLoop cfg md rest (currentChunk ++ [line])
          (currentSize + line.length) chunks

/- `SmartCodeChunker._chunk_generic`. -/
def chunkGeneric (cfg : ChunkerConfig) (content : PStr) (md : Metadata) :
    List Chunk :=
  let chunks := chunkGenLoop cfg md (splitLines content) [] 0 []
  if chunks.isEmpty then [createChunk content md 0] else chunks

def jsExtensions : List PStr :=
  [(".js").data, (".jsx").data, (".ts").data, (".tsx").data]

/- `SmartCodeChunker.chunk`: route on `metadata.get('extension')`. -/
def chunkDispatch (cfg : ChunkerConfig) (content : PStr) (md : Metadata) :
    List Chunk :=
  match md.extension with
  | some e => if e ∈ jsExtensions then chunkJavascript cfg content md
              else chunkGeneric cfg content md
  | none => chunkGeneric cfg content md

/- The embedding backend of `generate_embeddings` as an oracle: `call n texts`
   is the result of the (n+1)-th backend invocation of the run
   (`embed_documents` for the local provider, `embeddings.create` for openai),
   which either raises (`error`) or returns the vectors.  `E` is the opaque
   type of one embedding vector, `Err` the opaque type of raised exceptions. -/
structure Backend (E Err : Type) where
  call : Nat → List PStr → Except Err (List E)

/- `config.embedding.provider`, already validated by `__init__`. -/
inductive Provider where
  | localBackend
  | openaiBackend
deriving DecidableEq

/- An output dict `{**chunk, 'embedding': ...}`. -/
structure EmbChunk (E : Type) where
  content : PStr
  metadata : Metadata
  embedding : E
deriving DecidableEq

/- The `for retry in range(max_retries)` loop of `generate_embeddings`,
   entered after the initial call of a batch raised (openai provider only).
   Each iteration sleeps 2^retry seconds and then re-calls the backend; on the
   last iteration a failure re-raises.  Returns (outcome, number of backend
   calls made, sleep durations).  `ok none` means the range was empty
   (max_retries = 0): Python then falls through with the batch dropped. -/
def retryLoop (bk : Backend E Err) (maxRetries : Nat) (texts : List PStr) :
    Nat → Nat → Nat → Except Err (Option (List E)) × Nat × List Nat
  | 0, _, _ => (.ok none, 0, [])
  | fuel + 1, retry, callIdx =>
    match bk.call callIdx texts with
    | .ok vs => (.ok (some vs), 1, [2 ^ retry])
    | .error e =>
      if retry = maxRetries - 1 then (.error e, 1, [2 ^ retry])
      else
        let r := retryLoop bk maxRetries texts fuel (retry + 1) (callIdx + 1)
        (r.1, r.2.1 + 1, 2 ^ retry :: r.2.2)

/- One iteration of the batch loop body: the initial backend call, and on
   failure either an immediate re-raise (local) or the retry loop (openai). -/
def processBatch (prov : Provider) (bk : Backend E Err) (maxRetries : Nat)
    (batch : List Chunk) (callIdx : Nat) :
    Except Err (Option (List E)) × Nat × List Nat :=
  let texts := batch.map (fun c => c.content)
  match bk.call callIdx texts with
  | .ok vs => (.ok (some vs), 1, [])
  | .error e =>
    match prov with
    | .localBackend => (.error e, 1, [])
    | .openaiBackend =>
      let r := retryLoop bk maxRetries texts maxRetries 0 (callIdx + 1)
      (r.1, r.2.1 + 1, r.2.2)

/- `for chunk, embedding in zip(batch, vectors): enriched.append({**chunk,
   'embedding': embedding})` — zip truncates to the shorter sequence. -/
def zipEnrich (batch : List Chunk) (vs : List E) : List (EmbChunk E) :=
  (batch.zip vs).map (fun p => ⟨p.1.content, p.1.metadata, p.2⟩)

/- The batch loop of `generate_embeddings` from a given call counter.
   Returns (result or first uncaught exception, total backend calls made,
   sleep durations in order).  Python's `range(0, len(chunks), batch_size)`
   requires batch_size ≥ 1 (batch_size = 0 raises before the loop), hence the
   ℕ+ type. -/
def genAux (prov : Provider) (bk : Backend E Err) (maxRetries : Nat)
    (batchSize : ℕ+) :
    List Chunk → Nat → Except Err (List (EmbChunk E)) × Nat × List Nat
  | [], _ => (.ok [], 0, [])
  | c :: cs, callIdx =>
    let batch := (c :: cs).take (batchSize : Nat)
    match processBatch prov bk maxRetries batch callIdx with
    | (.error e, n, sl) => (.error e, n, sl)
    | (.ok opt, n, sl) =>
      let enriched := match opt with
        | some vs => zipEnrich batch vs
        | none => []
      let r := genAux prov bk maxRetries batchSize
        ((c :: cs).drop (batchSize : Nat)) (callIdx + n)
      (r.1.map (fun l => enriched ++ l), n + r.2.1, sl ++ r.2.2)
  termination_by chunks => chunks.length
  decreasing_by
    have hpos := batchSize.pos
    simp only [List.length_drop, List.length_cons]
    omega

/- `CodeVectorizer.generate_embeddings`. -/
def generate_embeddings (prov : Provider) (bk : Backend E Err)
    (maxRetries : Nat) (batchSize : ℕ+) (chunks : List Chunk) :
    Except Err (List (EmbChunk E)) × Nat × List Nat :=
  genAux prov bk maxRetries batchSize chunks 0

/- The fatal configuration errors of `CodeVectorizer.__init__`,
   `LocalEmbeddings.__init__` and `Config.validate`. -/
inductive ConfigError where
  | unknownProvider (p : PStr)
  | missingApiKey
  | unknownModel (m : PStr)
  | chunkSizeTooSmall
  | sourcePathMissing
deriving DecidableEq

/- The keys of `LocalEmbeddings.MODELS`. -/
def localModelNames : List PStr :=
  [("all-MiniLM-L6-v2").data, ("all-mpnet-base-v2").data,
   ("paraphrase-multilingual-MiniLM-L12-v2").data]

/- `LocalEmbeddings.__init__`: raises unless model_name is a MODELS key. -/
def localEmbeddingsInit (model_name : PStr) : Except ConfigError Unit :=
  if model_name ∈ localModelNames then .ok ()
  else .error (.unknownModel model_name)

/- `CodeVectorizer.__init__`, restricted to its provider dispatch: "local"
   constructs LocalEmbeddings (which checks the registry), "openai" requires a
   non-falsy OPENAI_API_KEY from the environment, anything else raises. -/
def vectorizerInit (provider : PStr) (model_name : PStr)
    (apiKey : Option PStr) : Except ConfigError Provider :=
  if provider = ("local").data then
    (localEmbeddingsInit model_name).map (fun _ => Provider.localBackend)
  else if provider = ("openai").data then
    match apiKey with
    | some k => if k.isEmpty then .error .missingApiKey
                else .ok Provider.openaiBackend
    | none => .error .missingApiKey
  else .error (.unknownProvider provider)

/- `Config.validate`: source path existence, then the chunk-size minimum. -/
def configValidate (sourceExists : Bool) (chunk_size : Nat) :
    Except ConfigError Bool :=
  if !sourceExists then .error .sourcePathMissing
  else if chunk_size < 100 then .error .chunkSizeTooSmall
  else .ok true

/- Python exceptions seen by `_process_file`: only UnicodeDecodeError is
   caught specially, all others are opaque. -/
inductive PyExc where
  | unicodeDecodeError
  | otherError (code : Nat)
deriving DecidableEq

/- One file as `_process_file` observes it: what each of the two `open(...)
   .read()` attempts would yield, and the analyzer's metadata for it. -/
structure FileOracle where
  readUtf8 : Except PyExc PStr
  readLatin1 : Except PyExc PStr
  md : Metadata

/- `CodeVectorizer._process_file`: read utf-8, on UnicodeDecodeError fall back
   to latin-1; any other exception (from either read) propagates.  Analysis
   and chunking are total. -/
def processFile (cfg : ChunkerConfig) (f : FileOracle) :
    Except PyExc (List Chunk) :=
  match f.readUtf8 with
  | .ok content => .ok (chunkDispatch cfg content f.md)
  | .error .unicodeDecodeError =>
    match f.readLatin1 with
    | .ok content => .ok (chunkDispatch cfg content f.md)
    | .error e => .error e
  | .error e => .error e

/- The per-file loop of `CodeVectorizer.process_codebase`: each file is
   processed inside try/except; a success extends all_chunks and increments
   files_processed, an exception increments errors and the loop continues.
   Returns (all_chunks, files_processed, errors). -/
def processCodebase (cfg : ChunkerConfig) :
    List FileOracle → List Chunk × Nat × Nat
  | [] => ([], 0, 0)
  | f :: rest =>
    let r := processCodebase cfg rest
    match processFile cfg f with
    | .ok chunks => (chunks ++ r.1, r.2.1 + 1, r.2.2)
    | .error _ => (r.1, r.2.1, r.2.2 + 1)

/- Specification companions to the chunker loops: the same loops, emitting the
   raw accumulated chunk bodies (the `chunk_content` strings handed to
   `_create_chunk`) instead of rendered chunks.  The agreement lemmas below
   prove they describe `chunkJavascript` / `chunkGeneric` exactly. -/

def chunksFrom (md : Metadata) : Nat → List PStr → List Chunk
  | _, [] => []
  | n, b :: bs => createChunk b md n :: chunksFrom md (n + 1) bs

def jsBodiesLoop (cfg : ChunkerConfig) :
    List PStr → List PStr → Nat → List PStr
  | [], currentChunk, _ =>
      if currentChunk.isEmpty then [] else [pyJoin ['\n', '\n'] currentChunk]
  | block :: rest, currentChunk, currentSize =>
      if currentSize + block.length > cfg.chunk_size && !currentChunk.isEmpty then
        if cfg.overlap > 0 then
          pyJoin ['\n', '\n'] currentChunk ::
            jsBodiesLoop cfg rest [currentChunk.getLastD [], block]
              (block.length + block.length)
        else
          pyJoin ['\n', '\n'] currentChunk ::
            jsBodiesLoop cfg rest [block] block.length
      else
        jsBodiesLoop cfg rest (currentChunk ++ [block])
          (currentSize + block.length)

/- Generic-loop companion that also records, for each emitted chunk, how many
   of its leading lines were carried over (the `current_chunk[-overlap_lines:]`
   seed) from the previously emitted chunk. -/
def genPairsLoop (cfg : ChunkerConfig) :
    List PStr → List PStr → Nat → Nat → List (List PStr × Nat)
  | [], currentChunk, _, carried =>
      if currentChunk.isEmpty then [] else [(currentChunk, carried)]
  | line :: rest, currentChunk, currentSize, carried =>
      if currentSize + line.length > cfg.chunk_size && !currentChunk.isEmpty then
        let k := overlapLineCount cfg.overlap currentSize currentChunk.length
        let newCurrent := pyTakeLast k currentChunk ++ [line]
        (currentChunk, carried) ::
          genPairsLoop cfg rest newCurrent (sumLens newCurrent)
            (min k currentChunk.length)
      else
        genPairsLoop cfg rest (currentChunk ++ [line])
          (currentSize + line.length) carried

def jsBodies (cfg : ChunkerConfig) (content : PStr) : List PStr :=
  let bs := jsBodiesLoop cfg (jsBlocks content) [] 0
  if bs.isEmpty then [content] else bs

def genPairs (cfg : ChunkerConfig) (content : PStr) : List (List PStr × Nat) :=
  genPairsLoop cfg (splitLines content) [] 0 0

def genBodies (cfg : ChunkerConfig) (content : PStr) : List PStr :=
  let bs := (genPairs cfg content).map (fun p => pyJoin ['\n'] p.1)
  if bs.isEmpty then [content] else bs

def dispatchBodies (cfg : ChunkerConfig) (content : PStr) (md : Metadata) :
    List PStr :=
  match md.extension with
  | some e => if e ∈ jsExtensions then jsBodies cfg content
              else genBodies cfg content
  | none => genBodies cfg content

/- General helper lemmas. -/

theorem chunksFrom_length (md : Metadata) :
    ∀ bodies n, (chunksFrom md n bodies).length = bodies.length := by
  intro bodies
  induction bodies with
  | nil => intro n; rfl
  | cons b bs ih => intro n; simp [chunksFrom, ih]

theorem chunksFrom_append (md : Metadata) :
    ∀ xs ys n, chunksFrom md n (xs ++ ys) =
      chunksFrom md n xs ++ chunksFrom md (n + xs.length) ys := by
  intro xs
  induction xs with
  | nil => intro ys n; simp [chunksFrom]
  | cons x xs ih =>
      intro ys n
      simp only [List.cons_append, chunksFrom, List.length_cons,
        List.append_eq]
      rw [ih, show n + (xs.length + 1) = n + 1 + xs.length by omega]

theorem chunksFrom_getElem (md : Metadata) :
    ∀ bodies n i, (chunksFrom md n bodies)[i]? =
      (bodies[i]?).map (fun b => createChunk b md (n + i)) := by
  intro bodies
  induction bodies with
  | nil => intro n i; simp [chunksFrom]
  | cons b bs ih =>
      intro n i
      cases i with
      | zero => simp [chunksFrom]
      | succ j =>
          show (createChunk b md n :: chunksFrom md (n + 1) bs)[j + 1]? = _
          rw [List.getElem?_cons_succ, ih, List.getElem?_cons_succ]
          rw [show n + 1 + j = n + (j + 1) by omega]

theorem chunkJsLoop_eq_bodies (cfg : ChunkerConfig) (md : Metadata) :
    ∀ blocks currentChunk currentSize chunks,
      chunkJsLoop cfg md blocks currentChunk currentSize chunks =
        chunks ++ chunksFrom md chunks.length
          (jsBodiesLoop cfg blocks currentChunk currentSize) := by
  intro blocks
  induction blocks with
  | nil =>
      intro currentChunk currentSize chunks
      by_cases h : currentChunk.isEmpty
      · simp [chunkJsLoop, jsBodiesLoop, h, chunksFrom]
      · simp [chunkJsLoop, jsBodiesLoop, h, chunksFrom]
  | cons block rest ih =>
      intro currentChunk currentSize chunks
      by_cases h : currentSize + block.length > cfg.chunk_size
          ∧ currentChunk.isEmpty = false
      · have hcond : (decide (currentSize + block.length > cfg.chunk_size)
            && !currentChunk.isEmpty) = true := by simp [h.1, h.2]
        by_cases hov : cfg.overlap > 0
        · simp only [chunkJsLoop, jsBodiesLoop, hcond, if_true, hov]
          rw [ih]
          simp [chunksFrom, chunksFrom_append, List.append_assoc]
        · simp only [chunkJsLoop, jsBodiesLoop, hcond, if_true, hov, if_false]
          rw [ih]
          simp [chunksFrom, chunksFrom_append, List.append_assoc]
      · have hcond : (decide (currentSize + block.length > cfg.chunk_size)
            && !currentChunk.isEmpty) = false := by
          rcases Decidable.not_and_iff_or_not.mp h with h1 | h1
          · simp [h1]
          · simp only [Bool.not_eq_false] at h1
            simp [h1]
        simp only [chunkJsLoop, jsBodiesLoop, hcond, Bool.false_eq_true,
          if_false]
        exact ih _ _ _

theorem chunkJavascript_eq_bodies (cfg : ChunkerConfig) (content : PStr)
    (md : Metadata) :
    chunkJavascript cfg content md = chunksFrom md 0 (jsBodies cfg content) := by
  unfold chunkJavascript jsBodies
  rw [chunkJsLoop_eq_bodies]
  simp only [List.nil_append, List.length_nil]
  cases hb : jsBodiesLoop cfg (jsBlocks content) [] 0 with
  | nil => simp [chunksFrom]
  | cons y ys => simp [chunksFrom]

theorem chunkGenLoop_eq_pairs (cfg : ChunkerConfig) (md : Metadata) :
    ∀ lines currentChunk currentSize carried chunks,
      chunkGenLoop cfg md lines currentChunk currentSize chunks =
        chunks ++ chunksFrom md chunks.length
          ((genPairsLoop cfg lines currentChunk currentSize carried).map
            (fun p => pyJoin ['\n'] p.1)) := by
  intro lines
  induction lines with
  | nil =>
      intro currentChunk currentSize carried chunks
      by_cases h : currentChunk.isEmpty
      · simp [chunkGenLoop, genPairsLoop, h, chunksFrom]
      · simp [chunkGenLoop, genPairsLoop, h, chunksFrom]
  | cons line rest ih =>
      intro currentChunk currentSize carried chunks
      by_cases h : currentSize + line.length > cfg.chunk_size
          ∧ currentChunk.isEmpty = false
      · have hcond : (decide (currentSize + line.length > cfg.chunk_size)
            && !currentChunk.isEmpty) = true := by simp [h.1, h.2]
        simp only [chunkGenLoop, genPairsLoop, hcond, if_true]
        rw [ih _ _ (min (overlapLineCount cfg.overlap currentSize
          currentChunk.length) currentChunk.length)]
        simp [chunksFrom, chunksFrom_append, List.append_assoc]
      · have hcond : (decide (currentSize + line.length > cfg.chunk_size)
            && !currentChunk.isEmpty) = false := by
          rcases Decidable.not_and_iff_or_not.mp h with h1 | h1
          · simp [h1]
          · simp only [Bool.not_eq_false] at h1
            simp [h1]
        simp only [chunkGenLoop, genPairsLoop, hcond, Bool.false_eq_true,
          if_false]
        exact ih _ _ _ _

theorem chunkGeneric_eq_bodies (cfg : ChunkerConfig) (content : PStr)
    (md : Metadata) :
    chunkGeneric cfg content md = chunksFrom md 0 (genBodies cfg content) := by
  unfold chunkGeneric genBodies genPairs
  rw [chunkGenLoop_eq_pairs cfg md _ _ _ 0]
  simp only [List.nil_append, List.length_nil]
  cases hb : genPairsLoop cfg (splitLines content) [] 0 0 with
  | nil => simp [chunksFrom]
  | cons y ys => simp [chunksFrom]

theorem chunkDispatch_eq_bodies (cfg : ChunkerConfig) (content : PStr)
    (md : Metadata) :
    chunkDispatch cfg content md =
      chunksFrom md 0 (dispatchBodies cfg content md) := by
  unfold chunkDispatch dispatchBodies
  cases md.extension with
  | none => exact chunkGeneric_eq_bodies cfg content md
  | some e =>
      by_cases h : e ∈ jsExtensions
      · simp only [h, if_true]
        exact chunkJavascript_eq_bodies cfg content md
      · simp only [h, if_false]
        exact chunkGeneric_eq_bodies cfg content md

theorem pyStr_ne_nil (n : Nat) : pyStr n ≠ [] := by
  unfold pyStr
  by_cases h : n = 0
  · simp [h]
  · simp only [h, if_false]
    unfold pyStrDigits
    simp [h]

theorem pyStrDigits_no_space :
    ∀ fuel n c, c ∈ pyStrDigits fuel n → pyIsSpace c = false := by
  intro fuel
  induction fuel with
  | zero => intro n c hc; simp [pyStrDigits] at hc
  | succ fuel ih =>
      intro n c hc
      unfold pyStrDigits at hc
      by_cases h : n = 0
      · simp [h] at hc
      · simp only [h, if_false, List.mem_append, List.mem_singleton] at hc
        rcases hc with hc | rfl
        · exact ih _ _ hc
        · have hlt : n % 10 < 10 := Nat.mod_lt _ (by norm_num)
          set d := n % 10 with hd
          interval_cases d <;> decide

theorem pyStr_no_space (n : Nat) : ∀ c ∈ pyStr n, pyIsSpace c = false := by
  intro c hc
  unfold pyStr at hc
  by_cases h : n = 0
  · simp [h] at hc
    subst hc
    decide
  · simp only [h, if_false] at hc
    exact pyStrDigits_no_space _ _ _ hc

theorem pyLstrip_cons_of_not_space (c : Char) (t : PStr)
    (h : pyIsSpace c = false) : pyLstrip (c :: t) = c :: t := by
  simp [pyLstrip, List.dropWhile_cons, h]

theorem pyRstrip_append_of_last (H t : PStr) (hne : H ≠ [])
    (h : pyIsSpace (H.getLast hne) = false) :
    pyRstrip (H ++ t) = H ++ pyRstrip t := by
  obtain ⟨A, d, hH, hd⟩ : ∃ A d, H = A ++ [d] ∧ pyIsSpace d = false := by
    refine ⟨H.dropLast, H.getLast hne, (List.dropLast_append_getLast hne).symm, h⟩
  subst hH
  by_cases h2 : (List.dropWhile pyIsSpace t.reverse).isEmpty
  · rw [List.isEmpty_iff] at h2
    simp [pyRstrip, List.reverse_append, List.dropWhile_append, h2,
      List.dropWhile_cons, hd]
  · simp [pyRstrip, List.reverse_append, List.dropWhile_append, h2,
      List.dropWhile_cons, hd]

theorem headerText_cons (md : Metadata) (i : Nat) :
    headerText md i = '#' :: ((" File: ").data
      ++ md.file_path.getD (("unknown").data)
      ++ ("\n# Layer: ").data ++ md.layer.getD (("unknown").data)
      ++ ("\n# Feature: ").data ++ md.feature.getD (("N/A").data)
      ++ ("\n# Chunk: ").data ++ pyStr (i + 1)) := by
  unfold headerText
  rw [show ("# File: ").data = '#' :: (" File: ").data from rfl]
  simp [List.cons_append, List.append_assoc]

theorem headerText_ne_nil (md : Metadata) (i : Nat) : headerText md i ≠ [] := by
  rw [headerText_cons]
  exact List.cons_ne_nil _ _

theorem headerText_getLast_not_space (md : Metadata) (i : Nat)
    (h : headerText md i ≠ []) :
    pyIsSpace ((headerText md i).getLast h) = false := by
  unfold headerText at h ⊢
  rw [List.getLast_append]
  have hps : (pyStr (i + 1)).isEmpty = false := by
    rw [Bool.eq_false_iff, ne_eq, List.isEmpty_iff]
    exact pyStr_ne_nil (i + 1)
  rw [dif_neg (by simp [hps])]
  exact pyStr_no_space (i + 1) _ (List.getLast_mem _)

theorem pyStrip_header_append (md : Metadata) (i : Nat) (t : PStr) :
    pyStrip (headerText md i ++ t) = headerText md i ++ pyRstrip t := by
  unfold pyStrip
  have hl : pyLstrip (headerText md i ++ t) = headerText md i ++ t := by
    rw [headerText_cons, List.cons_append]
    exact pyLstrip_cons_of_not_space _ _ (by decide)
  rw [hl]
  exact pyRstrip_append_of_last _ _ (headerText_ne_nil md i)
    (headerText_getLast_not_space md i _)

/- The rendered content of every chunk: the header block followed by the
   right-trimmed remainder (the leading `#` and the trailing chunk-number
   digit of the header are not whitespace, so `strip` leaves it intact). -/
theorem createChunk_content (content : PStr) (md : Metadata) (i : Nat) :
    (createChunk content md i).content =
      headerText md i ++ pyRstrip (['\n', '\n'] ++ content ++ ['\n']) := by
  unfold createChunk
  simp only [List.append_assoc]
  rw [← List.append_assoc ['\n', '\n'] content ['\n']]
  exact pyStrip_header_append md i _

theorem createChunk_metadata (content : PStr) (md : Metadata) (i : Nat) :
    (createChunk content md i).metadata =
      { md with chunk_index := some i, chunk_size := some content.length } :=
  rfl

/- Sample metadata records for concrete evaluations. -/

def mdSample : Metadata := ⟨none, none, none, none, none, none⟩

def mdJs : Metadata := ⟨none, none, none, some ((".js").data), none, none⟩

theorem dispatchBodies_nil (cfg : ChunkerConfig) (md : Metadata) :
    dispatchBodies cfg [] md = [[]] := by
  have hjs : jsBodies cfg [] = [[]] := by
    unfold jsBodies jsBlocks
    rw [show splitBlank [] = [[]] from rfl]
    simp [jsBodiesLoop, pyJoin, pyStrip, pyLstrip, pyRstrip]
    rfl
  have hgen : genBodies cfg [] = [[]] := by
    unfold genBodies genPairs
    rw [show splitLines [] = [[]] from rfl]
    simp [genPairsLoop, pyJoin]
    rfl
  unfold dispatchBodies
  cases md.extension with
  | none => exact hgen
  | some e =>
      by_cases h : e ∈ jsExtensions
      · simp only [h, if_true]; exact hjs
      · simp only [h, if_false]; exact hgen

/-- Claim C8: configuration errors are fatal and arise at construction or
validation time, before any file is processed: constructing the vectorizer
with an unknown embedding provider raises, constructing with provider
"openai" and no (or an empty) OPENAI_API_KEY raises, constructing the local
backend with a model name outside the fixed MODELS registry raises, and a
configured chunk_size below the minimum of 100 fails `Config.validate`. -/
theorem claim_C8 :
    (∀ p m k, p ≠ ("local").data → p ≠ ("openai").data →
      vectorizerInit p m k = .error (.unknownProvider p))
    ∧ (∀ m, vectorizerInit (("openai").data) m none = .error .missingApiKey)
    ∧ (∀ m, m ∉ localModelNames →
      localEmbeddingsInit m = .error (.unknownModel m))
    ∧ (∀ cs, cs < 100 → configValidate true cs = .error .chunkSizeTooSmall) := by
  refine ⟨?_, ?_, ?_, ?_⟩
  · intro p m k h1 h2
    unfold vectorizerInit
    rw [if_neg h1, if_neg h2]
  · intro m
    unfold vectorizerInit
    rw [if_neg (by decide), if_pos rfl]
  · intro m h
    unfold localEmbeddingsInit
    rw [if_neg h]
  · intro cs h
    unfold configValidate
    rw [if_neg (by decide), if_pos h]

theorem claim_C8_witness :
    vectorizerInit (("azure").data) (("m").data) none =
      .error (.unknownProvider (("azure").data))
    ∧ vectorizerInit (("openai").data) (("m").data) none = .error .missingApiKey
    ∧ localEmbeddingsInit (("gpt-x").data) =
      .error (.unknownModel (("gpt-x").data))
    ∧ configValidate true 99 = .error .chunkSizeTooSmall :=
  ⟨claim_C8.1 _ _ _ (by decide) (by decide), claim_C8.2.1 _,
   claim_C8.2.2.1 _ (by decide), claim_C8.2.2.2 99 (by decide)⟩

/-- Claim C9: during process_codebase an exception while processing one file
is the only error class that is swallowed: the failing file contributes no
chunks and one increment of the errors counter, successful files each add
their chunks (in file order) and one increment of files_processed, and
processing always continues through the whole file list. -/
theorem claim_C9 (cfg : ChunkerConfig) (files : List FileOracle) :
    processCodebase cfg files =
      ((files.filterMap (fun f => (processFile cfg f).toOption)).flatten,
       files.countP (fun f => (processFile cfg f).isOk),
       files.countP (fun f => !(processFile cfg f).isOk)) := by
  induction files with
  | nil => rfl
  | cons f rest ih =>
      unfold processCodebase
      rw [ih]
      cases h : processFile cfg f with
      | ok chunks =>
          simp [h, List.filterMap_cons, List.countP_cons, Except.toOption,
            Except.isOk, Except.toBool]
      | error e =>
          simp [h, List.filterMap_cons, List.countP_cons, Except.toOption,
            Except.isOk, Except.toBool]

theorem length_ite_one_le (l : List Chunk) (x : Chunk) :
    1 ≤ (if l.isEmpty then [x] else l).length := by
  cases l with
  | nil => simp
  | cons a t => simp

/-- Claim C6: SmartCodeChunker.chunk is total and returns at least one chunk
for every text input and any metadata; for the empty string it returns
exactly one chunk whose body (the text after the header block) is empty --
the rendered content is precisely the header -- and whose metadata records
chunk_size = 0. -/
theorem claim_C6 (cfg : ChunkerConfig) (md : Metadata) :
    (∀ content, 1 ≤ (chunkDispatch cfg content md).length)
    ∧ chunkDispatch cfg [] md = [createChunk [] md 0]
    ∧ (createChunk [] md 0).metadata.chunk_size = some 0
    ∧ (createChunk [] md 0).content = headerText md 0 := by
  refine ⟨?_, ?_, rfl, ?_⟩
  · intro content
    unfold chunkDispatch
    cases md.extension with
    | none => exact length_ite_one_le _ _
    | some e =>
        by_cases h : e ∈ jsExtensions
        · simp only [h, if_true]
          exact length_ite_one_le _ _
        · simp only [h, if_false]
          exact length_ite_one_le _ _
  · rw [chunkDispatch_eq_bodies, dispatchBodies_nil]
    rfl
  · have h : pyRstrip (['\n', '\n'] ++ ([] : PStr) ++ ['\n']) = [] := by decide
    rw [createChunk_content, h, List.append_nil]

/-- Claim C7: every chunk of SmartCodeChunker.chunk carries a chunk_index
equal to its position in the returned list (0..n-1, contiguous in emission
order), and its rendered content starts with the header block, which embeds
the 1-based chunk number index + 1 (headerText ends with str(index + 1)). -/
theorem claim_C7 (cfg : ChunkerConfig) (content : PStr) (md : Metadata)
    (i : Nat) (c : Chunk) (h : (chunkDispatch cfg content md)[i]? = some c) :
    c.metadata.chunk_index = some i ∧ headerText md i <+: c.content := by
  rw [chunkDispatch_eq_bodies, chunksFrom_getElem] at h
  cases hb : (dispatchBodies cfg content md)[i]? with
  | none =>
      rw [hb] at h
      exact absurd h (by simp)
  | some b =>
      rw [hb] at h
      have h2 : createChunk b md (0 + i) = c := by simpa using h
      rw [← h2]
      constructor
      · simp [createChunk]
      · rw [show (0 : Nat) + i = i from by omega, createChunk_content]
        exact ⟨_, rfl⟩

theorem claim_C7_witness :
    (chunkDispatch ⟨1500, 200⟩ (("x").data) mdSample)[0]? =
      some (createChunk (("x").data) mdSample 0)
    ∧ ((createChunk (("x").data) mdSample 0).metadata.chunk_index = some 0
      ∧ headerText mdSample 0 <+:
        (createChunk (("x").data) mdSample 0).content) :=
  ⟨by decide, claim_C7 ⟨1500, 200⟩ (("x").data) mdSample 0 _ (by decide)⟩

/-- Claim C10 (amended): the chunk_size stored by `_create_chunk` equals the
character length of the accumulated body text before the header is prepended
and before final trimming, not the length of the rendered content field; when
the body ends in a non-whitespace character the content is exactly header,
blank line and body, so chunk_size is strictly smaller than len(content);
for a whitespace-only body the strict inequality can fail (counterexample),
because strip removes the body from the content. -/
theorem claim_C10 (body : PStr) (md : Metadata) (i : Nat)
    (hne : body ≠ []) (hlast : pyIsSpace (body.getLast hne) = false) :
    (createChunk body md i).metadata.chunk_size = some body.length
    ∧ (createChunk body md i).content = headerText md i ++ ['\n', '\n'] ++ body
    ∧ body.length < (createChunk body md i).content.length := by
  have hH : ['\n', '\n'] ++ body ≠ [] := by simp
  have hlastH : pyIsSpace ((['\n', '\n'] ++ body).getLast hH) = false := by
    rw [List.getLast_append]
    rw [dif_neg (by simpa [List.isEmpty_iff] using hne)]
    exact hlast
  have hcontent : (createChunk body md i).content =
      headerText md i ++ ['\n', '\n'] ++ body := by
    rw [createChunk_content]
    rw [show ['\n', '\n'] ++ body ++ ['\n'] = (['\n', '\n'] ++ body) ++ ['\n']
      from by simp [List.append_assoc]]
    rw [pyRstrip_append_of_last _ _ hH hlastH]
    rw [show pyRstrip ['\n'] = [] from by decide, List.append_nil,
      List.append_assoc]
  refine ⟨rfl, hcontent, ?_⟩
  rw [hcontent]
  have hpos : 0 < (headerText md i).length :=
    List.length_pos.mpr (headerText_ne_nil md i)
  simp only [List.length_append, List.length_cons]
  omega

theorem claim_C10_witness :
    (createChunk (("abc").data) mdSample 0).metadata.chunk_size =
      some (("abc").data).length
    ∧ (createChunk (("abc").data) mdSample 0).content =
      headerText mdSample 0 ++ ['\n', '\n'] ++ ("abc").data
    ∧ (("abc").data).length <
      (createChunk (("abc").data) mdSample 0).content.length :=
  claim_C10 (("abc").data) mdSample 0 (by decide) (by decide)

/-- Claim C10 counterexample: a chunk actually emitted by SmartCodeChunker
(from a 100-space .js file, default chunk_size 1500 and overlap 200) stores
chunk_size = 100 but renders a 58-character content (the bare header), so
chunk_size is not strictly smaller than len(content) even though the header
is non-empty. -/
theorem claim_C10_counterexample :
    ((chunkDispatch ⟨1500, 200⟩ (List.replicate 100 ' ') mdJs).map
      (fun c => (c.metadata.chunk_size, c.content.length))) = [(some 100, 58)]
    ∧ ¬(100 < 58) := by
  constructor
  · decide
  · decide

theorem sumLens_cons (x : PStr) (l : List PStr) :
    sumLens (x :: l) = x.length + sumLens l := by
  simp [sumLens]

theorem pyStrip_length_le (s : PStr) : (pyStrip s).length ≤ s.length := by
  unfold pyStrip pyRstrip pyLstrip
  calc ((List.dropWhile pyIsSpace
          (List.dropWhile pyIsSpace s).reverse).reverse).length
      = (List.dropWhile pyIsSpace
          (List.dropWhile pyIsSpace s).reverse).length := by
        rw [List.length_reverse]
    _ ≤ ((List.dropWhile pyIsSpace s).reverse).length :=
        (List.dropWhile_suffix pyIsSpace).length_le
    _ = (List.dropWhile pyIsSpace s).length := by rw [List.length_reverse]
    _ ≤ s.length := (List.dropWhile_suffix pyIsSpace).length_le

theorem sumLens_splitBlankAux :
    ∀ acc s, sumLens (splitBlankAux acc s) ≤ acc.length + s.length := by
  intro acc s
  induction acc, s using splitBlankAux.induct with
  | case1 acc rest ih =>
      rw [splitBlankAux.eq_1, sumLens_cons]
      simp only [List.length_nil, Nat.zero_add] at ih
      simp only [List.length_reverse, List.length_cons]
      omega
  | case2 acc c rest hne ih =>
      rw [splitBlankAux.eq_2 acc c rest hne]
      simp only [List.length_cons] at ih
      simp only [List.length_cons]
      omega
  | case3 acc =>
      simp [splitBlankAux, sumLens]

theorem sumLens_filter_le (p : PStr → Bool) (l : List PStr) :
    sumLens (l.filter p) ≤ sumLens l := by
  induction l with
  | nil => simp [sumLens]
  | cons x xs ih =>
      by_cases h : p x
      · simp only [List.filter_cons, h, if_true, sumLens_cons]
        omega
      · simp only [List.filter_cons, h, Bool.false_eq_true, if_false,
          sumLens_cons]
        omega

theorem sumLens_map_pyStrip_le (l : List PStr) :
    sumLens (l.map pyStrip) ≤ sumLens l := by
  induction l with
  | nil => simp [sumLens]
  | cons x xs ih =>
      simp only [List.map_cons, sumLens_cons]
      have := pyStrip_length_le x
      omega

theorem sumLens_jsBlocks_le (content : PStr) :
    sumLens (jsBlocks content) ≤ content.length := by
  unfold jsBlocks
  by_cases h : (((splitBlank content).map pyStrip).filter
      (fun b => !b.isEmpty)).isEmpty
  · simp only [h, if_true, sumLens_cons, sumLens]
    simp
  · simp only [h, Bool.false_eq_true, if_false]
    calc sumLens (((splitBlank content).map pyStrip).filter
            (fun b => !b.isEmpty))
        ≤ sumLens ((splitBlank content).map pyStrip) := sumLens_filter_le _ _
      _ ≤ sumLens (splitBlank content) := sumLens_map_pyStrip_le _
      _ ≤ content.length := by
          have := sumLens_splitBlankAux [] content
          simpa using this

theorem jsBlocks_ne_nil (content : PStr) : jsBlocks content ≠ [] := by
  unfold jsBlocks
  by_cases h : (((splitBlank content).map pyStrip).filter
      (fun b => !b.isEmpty)).isEmpty
  · simp [h]
  · simp only [h, Bool.false_eq_true, if_false]
    simpa [List.isEmpty_iff] using h

theorem chunkJsLoop_no_split (cfg : ChunkerConfig) (md : Metadata) :
    ∀ blocks currentChunk currentSize chunks,
      currentSize + sumLens blocks ≤ cfg.chunk_size →
      chunkJsLoop cfg md blocks currentChunk currentSize chunks =
        (if (currentChunk ++ blocks).isEmpty then chunks
         else chunks ++ [createChunk (pyJoin ['\n', '\n']
           (currentChunk ++ blocks)) md chunks.length]) := by
  intro blocks
  induction blocks with
  | nil =>
      intro cc cs chunks h
      simp [chunkJsLoop]
  | cons b rest ih =>
      intro cc cs chunks h
      have hgt : ¬(cs + b.length > cfg.chunk_size) := by
        rw [sumLens_cons] at h
        omega
      have hcond : (decide (cs + b.length > cfg.chunk_size)
          && !cc.isEmpty) = false := by simp [hgt]
      simp only [chunkJsLoop, hcond, Bool.false_eq_true, if_false]
      rw [ih _ _ _ (by rw [sumLens_cons] at h; omega)]
      simp [List.append_assoc]

theorem chunkJavascript_single (cfg : ChunkerConfig) (content : PStr)
    (md : Metadata) (h : content.length ≤ cfg.chunk_size) :
    chunkJavascript cfg content md =
      [createChunk (pyJoin ['\n', '\n'] (jsBlocks content)) md 0] := by
  unfold chunkJavascript
  rw [chunkJsLoop_no_split cfg md _ _ _ _ (by
    have := sumLens_jsBlocks_le content
    omega)]
  have h2 : (jsBlocks content).isEmpty = false := by
    simp [List.isEmpty_iff, jsBlocks_ne_nil]
  simp [h2]

theorem pyJoin_singleton (sep x : PStr) : pyJoin sep [x] = x := by
  simp [pyJoin, List.intercalate]

theorem pyJoin_pair (sep x y : PStr) : pyJoin sep [x, y] = x ++ sep ++ y := by
  simp [pyJoin, List.intercalate, List.intersperse, List.append_assoc]

theorem chunkJavascript_three_blocks (content b1 b2 b3 : PStr) (md : Metadata)
    (hb : jsBlocks content = [b1, b2, b3])
    (h1 : b1.length = 1000) (h2 : b2.length = 1000) (h3 : b3.length = 1000) :
    chunkJavascript ⟨1500, 200⟩ content md =
      [createChunk b1 md 0,
       createChunk (b1 ++ ['\n', '\n'] ++ b2) md 1,
       createChunk (b2 ++ ['\n', '\n'] ++ b3) md 2] := by
  unfold chunkJavascript
  rw [hb]
  norm_num [chunkJsLoop, h1, h2, h3, List.getLastD, pyJoin_singleton,
    pyJoin_pair]

/-- Claim C2 (amended): a 10-line JavaScript-like file whose content is under
chunk_size produces exactly 1 chunk with chunk_index = 0; a file whose content
is three 1000-character blank-line-separated blocks chunked with chunk_size =
1500 and overlap = 200 produces exactly 3 chunks (not 2: the overlap seeding
re-counts the triggering block, and three 1000-character blocks cannot fit in
two 1500-character chunks), the second chunk's body beginning with the last
block of the first chunk. -/
theorem claim_C2 :
    (∀ (cfg : ChunkerConfig) (content : PStr) (md : Metadata) e,
      md.extension = some e → e ∈ jsExtensions →
      (splitLines content).length = 10 →
      content.length < cfg.chunk_size →
      (chunkDispatch cfg content md).length = 1
      ∧ (chunkDispatch cfg content md)[0]?.map
          (fun c => c.metadata.chunk_index) = some (some 0))
    ∧ (∀ (content b1 b2 b3 : PStr) (md : Metadata) e,
      md.extension = some e → e ∈ jsExtensions →
      jsBlocks content = [b1, b2, b3] →
      b1.length = 1000 → b2.length = 1000 → b3.length = 1000 →
      chunkDispatch ⟨1500, 200⟩ content md =
        [createChunk b1 md 0,
         createChunk (b1 ++ ['\n', '\n'] ++ b2) md 1,
         createChunk (b2 ++ ['\n', '\n'] ++ b3) md 2]
      ∧ b1 <+: (b1 ++ ['\n', '\n'] ++ b2)) := by
  constructor
  · intro cfg content md e hext hin hlines hlen
    have hdisp : chunkDispatch cfg content md = chunkJavascript cfg content md := by
      unfold chunkDispatch
      rw [hext]
      simp [hin]
    rw [hdisp, chunkJavascript_single cfg content md (Nat.le_of_lt hlen)]
    constructor
    · rfl
    · simp [createChunk]
  · intro content b1 b2 b3 md e hext hin hb h1 h2 h3
    have hdisp : chunkDispatch ⟨1500, 200⟩ content md =
        chunkJavascript ⟨1500, 200⟩ content md := by
      unfold chunkDispatch
      rw [hext]
      simp [hin]
    rw [hdisp, chunkJavascript_three_blocks content b1 b2 b3 md hb h1 h2 h3]
    exact ⟨rfl, ⟨['\n', '\n'] ++ b2, by simp [List.append_assoc]⟩⟩

def bigA : PStr := List.replicate 1000 'a'

def bigContent : PStr := bigA ++ ['\n', '\n'] ++ bigA ++ ['\n', '\n'] ++ bigA

def tenLines : PStr := ("a\nb\nc\nd\ne\nf\ng\nh\ni\nj").data

set_option maxRecDepth 100000

theorem claim_C2_witness :
    ((chunkDispatch ⟨1500, 200⟩ tenLines mdJs).length = 1
      ∧ (chunkDispatch ⟨1500, 200⟩ tenLines mdJs)[0]?.map
          (fun c => c.metadata.chunk_index) = some (some 0))
    ∧ (chunkDispatch ⟨1500, 200⟩ bigContent mdJs =
        [createChunk bigA mdJs 0,
         createChunk (bigA ++ ['\n', '\n'] ++ bigA) mdJs 1,
         createChunk (bigA ++ ['\n', '\n'] ++ bigA) mdJs 2]
      ∧ bigA <+: (bigA ++ ['\n', '\n'] ++ bigA)) :=
  ⟨claim_C2.1 ⟨1500, 200⟩ tenLines mdJs ((".js").data) rfl (by decide)
      (by decide) (by decide),
   claim_C2.2 bigContent bigA bigA bigA mdJs ((".js").data) rfl (by decide)
      (by decide) (by decide) (by decide) (by decide)⟩

/-- Claim C2 counterexample: the concrete file made of three 1000-character
blank-line-separated blocks of the letter a, chunked as .js content with
chunk_size = 1500 and overlap = 200, yields 3 chunks, not the 2 the claim
states. -/
theorem claim_C2_counterexample :
    ¬((chunkDispatch ⟨1500, 200⟩ bigContent mdJs).length = 2) := by
  intro hcontra
  have h3 : (chunkDispatch ⟨1500, 200⟩ bigContent mdJs).length = 3 := by decide
  omega

theorem pyTakeLast_length (k : Nat) (l : List α) :
    (pyTakeLast k l).length = min k l.length := by
  simp only [pyTakeLast, List.length_drop]
  omega

/- Dropping each emitted chunk's carried-overlap prefix and concatenating
   recovers exactly the lines still owed: the uncommitted part of the current
   buffer followed by the unread lines.  `carried` counts how many leading
   lines of the buffer were already emitted as part of the previous chunk. -/
theorem genPairsLoop_reconstruct (cfg : ChunkerConfig) :
    ∀ lines currentChunk currentSize carried, carried ≤ currentChunk.length →
      ((genPairsLoop cfg lines currentChunk currentSize carried).map
        (fun p => p.1.drop p.2)).flatten =
        currentChunk.drop carried ++ lines := by
  intro lines
  induction lines with
  | nil =>
      intro currentChunk currentSize carried hc
      by_cases h : currentChunk.isEmpty
      · rw [List.isEmpty_iff] at h
        subst h
        simp [genPairsLoop]
      · have h2 : currentChunk.isEmpty = false := by
          simpa using h
        simp [genPairsLoop, h2]
  | cons line rest ih =>
      intro currentChunk currentSize carried hc
      by_cases h : (currentSize + line.length > cfg.chunk_size)
          ∧ currentChunk.isEmpty = false
      · have hcond : (decide (currentSize + line.length > cfg.chunk_size)
            && !currentChunk.isEmpty) = true := by simp [h.1, h.2]
        simp only [genPairsLoop, hcond, if_true]
        set k := overlapLineCount cfg.overlap currentSize currentChunk.length
          with hk
        have hlen : (pyTakeLast k currentChunk).length =
            min k currentChunk.length := pyTakeLast_length k currentChunk
        have hle : min k currentChunk.length ≤
            (pyTakeLast k currentChunk ++ [line]).length := by
          simp only [List.length_append, List.length_cons, List.length_nil,
            hlen]
          omega
        rw [List.map_cons, List.flatten_cons, ih _ _ _ hle]
        rw [show (pyTakeLast k currentChunk ++ [line]).drop
            (min k currentChunk.length) = [line] from by
          rw [← hlen]
          exact List.drop_left _ _]
        simp
      · have hcond : (decide (currentSize + line.length > cfg.chunk_size)
            && !currentChunk.isEmpty) = false := by
          rcases Decidable.not_and_iff_or_not.mp h with h1 | h1
          · simp [h1]
          · simp only [Bool.not_eq_false] at h1
            simp [h1]
        simp only [genPairsLoop, hcond, Bool.false_eq_true, if_false]
        rw [ih _ _ _ (by simp; omega)]
        rw [List.drop_append_of_le_length hc]
        simp

/- Each emitted chunk after the first starts with a carried block of lines
   that is a suffix of the chunk emitted just before it, and the first chunk
   of a run started with an empty buffer carries nothing. -/
theorem genPairsLoop_chain (cfg : ChunkerConfig) :
    ∀ lines currentChunk currentSize carried,
      (genPairsLoop cfg lines currentChunk currentSize carried = []
        ∨ ∃ p rest, genPairsLoop cfg lines currentChunk currentSize carried =
            p :: rest ∧ (∃ ext, p.1 = currentChunk ++ ext) ∧ p.2 = carried)
      ∧ (genPairsLoop cfg lines currentChunk currentSize carried).Chain'
          (fun p q => q.1.take q.2 <:+ p.1) := by
  intro lines
  induction lines with
  | nil =>
      intro currentChunk currentSize carried
      by_cases h : currentChunk.isEmpty
      · simp [genPairsLoop, h]
      · have h2 : currentChunk.isEmpty = false := by simpa using h
        refine ⟨Or.inr ⟨(currentChunk, carried), [], ?_, ⟨[], by simp⟩, rfl⟩, ?_⟩
        · simp [genPairsLoop, h2]
        · simp [genPairsLoop, h2]
  | cons line rest ih =>
      intro currentChunk currentSize carried
      by_cases h : (currentSize + line.length > cfg.chunk_size)
          ∧ currentChunk.isEmpty = false
      · have hcond : (decide (currentSize + line.length > cfg.chunk_size)
            && !currentChunk.isEmpty) = true := by simp [h.1, h.2]
        simp only [genPairsLoop, hcond, if_true]
        set k := overlapLineCount cfg.overlap currentSize currentChunk.length
          with hk
        set newCurrent := pyTakeLast k currentChunk ++ [line] with hnc
        obtain ⟨hhead, hchain⟩ := ih newCurrent (sumLens newCurrent)
          (min k currentChunk.length)
        refine ⟨Or.inr ⟨(currentChunk, carried), _, rfl, ⟨[], by simp⟩, rfl⟩, ?_⟩
        rw [List.chain'_cons']
        refine ⟨?_, hchain⟩
        intro q hq
        rcases hhead with hnil | ⟨p, prest, hcons, ⟨ext, hext⟩, hcar⟩
        · rw [hnil] at hq
          simp at hq
        · rw [hcons] at hq
          simp only [List.head?_cons, Option.mem_def, Option.some_inj] at hq
          subst hq
          rw [hext, hcar, hnc]
          rw [List.append_assoc]
          rw [show min k currentChunk.length =
            (pyTakeLast k currentChunk).length from
              (pyTakeLast_length k currentChunk).symm]
          rw [List.take_left]
          exact List.drop_suffix _ _
      · have hcond : (decide (currentSize + line.length > cfg.chunk_size)
            && !currentChunk.isEmpty) = false := by
          rcases Decidable.not_and_iff_or_not.mp h with h1 | h1
          · simp [h1]
          · simp only [Bool.not_eq_false] at h1
            simp [h1]
        simp only [genPairsLoop, hcond, Bool.false_eq_true, if_false]
        obtain ⟨hhead, hchain⟩ := ih (currentChunk ++ [line])
          (currentSize + line.length) carried
        refine ⟨?_, hchain⟩
        rcases hhead with hnil | ⟨p, prest, hcons, ⟨ext, hext⟩, hcar⟩
        · exact Or.inl hnil
        · exact Or.inr ⟨p, prest, hcons,
            ⟨[line] ++ ext, by rw [hext, List.append_assoc]⟩, hcar⟩

theorem splitLines_ne_nil (content : PStr) : splitLines content ≠ [] := by
  unfold splitLines List.splitOn
  exact List.splitOnP_ne_nil _ _

theorem genPairs_ne_nil (cfg : ChunkerConfig) (content : PStr) :
    genPairs cfg content ≠ [] := by
  intro h
  have hr := genPairsLoop_reconstruct cfg (splitLines content) [] 0 0
    (by simp)
  rw [show genPairsLoop cfg (splitLines content) [] 0 0 =
    genPairs cfg content from rfl, h] at hr
  simp at hr
  exact splitLines_ne_nil content hr

theorem genBodies_eq (cfg : ChunkerConfig) (content : PStr) :
    genBodies cfg content =
      (genPairs cfg content).map (fun p => pyJoin ['\n'] p.1) := by
  unfold genBodies
  have h : ((genPairs cfg content).map
      (fun p => pyJoin ['\n'] p.1)).isEmpty = false := by
    cases hp : genPairs cfg content with
    | nil => exact absurd hp (genPairs_ne_nil cfg content)
    | cons p ps => simp
  simp [h]

theorem chunkDispatch_generic (cfg : ChunkerConfig) (content : PStr)
    (md : Metadata)
    (hroute : ∀ e, md.extension = some e → e ∉ jsExtensions) :
    chunkDispatch cfg content md = chunkGeneric cfg content md := by
  unfold chunkDispatch
  cases hext : md.extension with
  | none => rfl
  | some e => simp [hroute e hext]

/-- Claim C3 (amended): for any input text and chunk_size ≥ 1, when the
metadata does not route to the JavaScript splitter, the chunk list is exactly
the rendered bodies of the generic loop in order; dropping each chunk's
carried overlap prefix (a block of lines that is a suffix of the previous
chunk's lines) and concatenating the remaining lines reproduces the original
content exactly -- nothing lost or altered, with only that carried overlap
duplicated.  The JavaScript branch does not satisfy this: it normalizes
whitespace between blocks (see the counterexample). -/
theorem claim_C3 (cfg : ChunkerConfig) (content : PStr) (md : Metadata)
    (hcs : 1 ≤ cfg.chunk_size)
    (hroute : ∀ e, md.extension = some e → e ∉ jsExtensions) :
    1 ≤ (chunkDispatch cfg content md).length
    ∧ chunkDispatch cfg content md =
        chunksFrom md 0
          ((genPairs cfg content).map (fun p => pyJoin ['\n'] p.1))
    ∧ pyJoin ['\n'] (((genPairs cfg content).map
        (fun p => p.1.drop p.2)).flatten) = content
    ∧ (genPairs cfg content).Chain' (fun p q => q.1.take q.2 <:+ p.1) := by
  have hbody : chunkDispatch cfg content md =
      chunksFrom md 0
        ((genPairs cfg content).map (fun p => pyJoin ['\n'] p.1)) := by
    rw [chunkDispatch_generic cfg content md hroute,
      chunkGeneric_eq_bodies, genBodies_eq]
  refine ⟨?_, hbody, ?_, (genPairsLoop_chain cfg (splitLines content) [] 0 0).2⟩
  · rw [hbody]
    have hlen : (chunksFrom md 0 ((genPairs cfg content).map
        (fun p => pyJoin ['\n'] p.1))).length =
        (genPairs cfg content).length := by
      rw [chunksFrom_length, List.length_map]
    rw [hlen]
    exact List.length_pos.mpr (genPairs_ne_nil cfg content)
  · have hr := genPairsLoop_reconstruct cfg (splitLines content) [] 0 0
      (by simp)
    rw [show genPairsLoop cfg (splitLines content) [] 0 0 =
      genPairs cfg content from rfl] at hr
    simp only [List.drop_nil, List.nil_append] at hr
    rw [hr]
    unfold splitLines pyJoin
    exact List.intercalate_splitOn content '\n'

theorem claim_C3_witness :
    1 ≤ (chunkDispatch ⟨4, 2⟩ (("ab\ncd\nef").data) mdSample).length
    ∧ chunkDispatch ⟨4, 2⟩ (("ab\ncd\nef").data) mdSample =
        chunksFrom mdSample 0
          ((genPairs ⟨4, 2⟩ (("ab\ncd\nef").data)).map
            (fun p => pyJoin ['\n'] p.1))
    ∧ pyJoin ['\n'] (((genPairs ⟨4, 2⟩ (("ab\ncd\nef").data)).map
        (fun p => p.1.drop p.2)).flatten) = ("ab\ncd\nef").data
    ∧ (genPairs ⟨4, 2⟩ (("ab\ncd\nef").data)).Chain'
        (fun p q => q.1.take q.2 <:+ p.1) :=
  claim_C3 ⟨4, 2⟩ (("ab\ncd\nef").data) mdSample (by decide)
    (fun e he => Option.noConfusion he)

/-- Claim C3 counterexample: on the .js file "a\n\n\nb" (chunk_size 1500 ≥ 1)
the chunker returns a single chunk whose body is "a\n\nb": the third newline
is gone, so concatenating the bodies does not reproduce the original content
-- content is lost, not merely overlap-duplicated. -/
theorem claim_C3_counterexample :
    chunkDispatch ⟨1500, 200⟩ (("a\n\n\nb").data) mdJs =
      [createChunk (("a\n\nb").data) mdJs 0]
    ∧ ("a\n\nb").data ≠ ("a\n\n\nb").data
    ∧ (("a\n\nb").data).length < (("a\n\n\nb").data).length := by
  refine ⟨by decide, by decide, by decide⟩

/- The texts handed to the backend for batch k. -/
def batchTexts (chunks : List Chunk) (batchSize : ℕ+) (k : Nat) : List PStr :=
  ((chunks.drop (k * (batchSize : Nat))).take (batchSize : Nat)).map
    (fun c => c.content)

/- Specification of the all-batches-succeed run: per batch the backend is
   called once with the batch's texts and the returned vectors are zipped
   positionally onto the batch's chunks, in batch order. -/
def embedAll (F : Nat → List PStr → List E) (batchSize : ℕ+) :
    List Chunk → Nat → List (EmbChunk E)
  | [], _ => []
  | c :: cs, c0 =>
      zipEnrich ((c :: cs).take (batchSize : Nat))
          (F c0 (((c :: cs).take (batchSize : Nat)).map (fun x => x.content)))
        ++ embedAll F batchSize ((c :: cs).drop (batchSize : Nat)) (c0 + 1)
  termination_by chunks => chunks.length
  decreasing_by
    have hpos := batchSize.pos
    simp only [List.length_drop, List.length_cons]
    omega

def numBatches (batchSize : ℕ+) : List Chunk → Nat
  | [] => 0
  | c :: cs => 1 + numBatches batchSize ((c :: cs).drop (batchSize : Nat))
  termination_by chunks => chunks.length
  decreasing_by
    have hpos := batchSize.pos
    simp only [List.length_drop, List.length_cons]
    omega

theorem genAux_all_ok {E Err : Type} (prov : Provider) (bk : Backend E Err)
    (maxRetries : Nat) (batchSize : ℕ+) (F : Nat → List PStr → List E)
    (hcall : ∀ k ts, bk.call k ts = .ok (F k ts)) :
    ∀ n (chunks : List Chunk) (c0 : Nat), chunks.length ≤ n →
      genAux prov bk maxRetries batchSize chunks c0 =
        (.ok (embedAll F batchSize chunks c0),
         numBatches batchSize chunks, []) := by
  intro n
  induction n with
  | zero =>
      intro chunks c0 hle
      have : chunks = [] := List.length_eq_zero.mp (Nat.le_zero.mp hle)
      subst this
      simp [genAux, embedAll, numBatches]
  | succ n ih =>
      intro chunks c0 hle
      cases chunks with
      | nil => simp [genAux, embedAll, numBatches]
      | cons c cs =>
          have hpb : processBatch prov bk maxRetries
              ((c :: cs).take (batchSize : Nat)) c0 =
              (.ok (some (F c0 (((c :: cs).take (batchSize : Nat)).map
                (fun x => x.content)))), 1, []) := by
            simp [processBatch, hcall]
          rw [show genAux prov bk maxRetries batchSize (c :: cs) c0 =
            match processBatch prov bk maxRetries
                ((c :: cs).take (batchSize : Nat)) c0 with
            | (.error e, n, sl) => (.error e, n, sl)
            | (.ok opt, n, sl) =>
              let enriched := match opt with
                | some vs => zipEnrich ((c :: cs).take (batchSize : Nat)) vs
                | none => []
              let r := genAux prov bk maxRetries batchSize
                ((c :: cs).drop (batchSize : Nat)) (c0 + n)
              (r.1.map (fun l => enriched ++ l), n + r.2.1, sl ++ r.2.2)
            from by rw [genAux]]
          rw [hpb]
          have hlen : ((c :: cs).drop (batchSize : Nat)).length ≤ n := by
            have hpos := batchSize.pos
            simp only [List.length_drop, List.length_cons]
            simp only [List.length_cons] at hle
            omega
          simp only [ih _ (c0 + 1) hlen]
          simp [embedAll, numBatches, Except.map]

theorem embedAll_length {E : Type} (F : Nat → List PStr → List E)
    (batchSize : ℕ+) (hlen : ∀ k ts, (F k ts).length = ts.length) :
    ∀ n (chunks : List Chunk) (c0 : Nat), chunks.length ≤ n →
      (embedAll F batchSize chunks c0).length = chunks.length := by
  intro n
  induction n with
  | zero =>
      intro chunks c0 hle
      have : chunks = [] := List.length_eq_zero.mp (Nat.le_zero.mp hle)
      subst this
      simp [embedAll]
  | succ n ih =>
      intro chunks c0 hle
      cases chunks with
      | nil => simp [embedAll]
      | cons c cs =>
          have hpos := batchSize.pos
          have hrec := ih ((c :: cs).drop (batchSize : Nat)) (c0 + 1) (by
            simp only [List.length_drop, List.length_cons]
            simp only [List.length_cons] at hle
            omega)
          rw [show embedAll F batchSize (c :: cs) c0 =
            zipEnrich ((c :: cs).take (batchSize : Nat))
              (F c0 (((c :: cs).take (batchSize : Nat)).map
                (fun x => x.content)))
            ++ embedAll F batchSize ((c :: cs).drop (batchSize : Nat)) (c0 + 1)
            from by rw [embedAll]]
          rw [List.length_append, hrec]
          have hz : (zipEnrich ((c :: cs).take (batchSize : Nat))
              (F c0 (((c :: cs).take (batchSize : Nat)).map
                (fun x => x.content)))).length =
              ((c :: cs).take (batchSize : Nat)).length := by
            simp [zipEnrich, List.length_zip, hlen]
          rw [hz]
          simp only [List.length_take, List.length_drop, List.length_cons]
          omega

theorem embedAll_map_chunk {E : Type} (F : Nat → List PStr → List E)
    (batchSize : ℕ+) (hlen : ∀ k ts, (F k ts).length = ts.length) :
    ∀ n (chunks : List Chunk) (c0 : Nat), chunks.length ≤ n →
      (embedAll F batchSize chunks c0).map
        (fun ec => Chunk.mk ec.content ec.metadata) = chunks := by
  intro n
  induction n with
  | zero =>
      intro chunks c0 hle
      have : chunks = [] := List.length_eq_zero.mp (Nat.le_zero.mp hle)
      subst this
      simp [embedAll]
  | succ n ih =>
      intro chunks c0 hle
      cases chunks with
      | nil => simp [embedAll]
      | cons c cs =>
          have hpos := batchSize.pos
          have hrec := ih ((c :: cs).drop (batchSize : Nat)) (c0 + 1) (by
            simp only [List.length_drop, List.length_cons]
            simp only [List.length_cons] at hle
            omega)
          rw [show embedAll F batchSize (c :: cs) c0 =
            zipEnrich ((c :: cs).take (batchSize : Nat))
              (F c0 (((c :: cs).take (batchSize : Nat)).map
                (fun x => x.content)))
            ++ embedAll F batchSize ((c :: cs).drop (batchSize : Nat)) (c0 + 1)
            from by rw [embedAll]]
          rw [List.map_append, hrec]
          have hz : (zipEnrich ((c :: cs).take (batchSize : Nat))
              (F c0 (((c :: cs).take (batchSize : Nat)).map
                (fun x => x.content)))).map
              (fun ec => Chunk.mk ec.content ec.metadata) =
              (c :: cs).take (batchSize : Nat) := by
            unfold zipEnrich
            rw [List.map_map]
            rw [show ((fun ec : EmbChunk E => Chunk.mk ec.content ec.metadata)
              ∘ fun p : Chunk × E => EmbChunk.mk p.1.content p.1.metadata p.2)
              = Prod.fst from funext fun p => rfl]
            exact List.map_fst_zip _ _ (by rw [hlen, List.length_map])
          rw [hz, List.take_append_drop]

/-- Claim C4: when every backend call succeeds and returns one vector per
input text, generate_embeddings returns an `ok` result (with one call per
batch and no retry sleeps) equal to `embedAll`, which per batch zips the
returned vectors positionally onto the batch's chunks; the output has the
same length as the input and erasing the embedding field gives back exactly
the input chunks in order -- each output chunk is its input chunk with only
the embedding added. -/
theorem claim_C4 {E Err : Type} (prov : Provider) (bk : Backend E Err)
    (maxRetries : Nat) (batchSize : ℕ+) (F : Nat → List PStr → List E)
    (chunks : List Chunk)
    (hcall : ∀ k ts, bk.call k ts = .ok (F k ts))
    (hlen : ∀ k ts, (F k ts).length = ts.length) :
    generate_embeddings prov bk maxRetries batchSize chunks =
      (.ok (embedAll F batchSize chunks 0), numBatches batchSize chunks, [])
    ∧ (embedAll F batchSize chunks 0).length = chunks.length
    ∧ (embedAll F batchSize chunks 0).map
        (fun ec => Chunk.mk ec.content ec.metadata) = chunks :=
  ⟨genAux_all_ok prov bk maxRetries batchSize F hcall chunks.length chunks 0
      (Nat.le_refl _),
   embedAll_length F batchSize hlen chunks.length chunks 0 (Nat.le_refl _),
   embedAll_map_chunk F batchSize hlen chunks.length chunks 0 (Nat.le_refl _)⟩

def embedConstF : Nat → List PStr → List Nat :=
  fun k ts => ts.map (fun _ => k)

def bkOk : Backend Nat Nat := ⟨fun k ts => .ok (embedConstF k ts)⟩

def twoChunks : List Chunk :=
  [⟨("a").data, mdSample⟩, ⟨("b").data, mdSample⟩]

theorem claim_C4_witness :
    generate_embeddings Provider.localBackend bkOk 3 1 twoChunks =
      (.ok (embedAll embedConstF 1 twoChunks 0), numBatches 1 twoChunks, [])
    ∧ (embedAll embedConstF 1 twoChunks 0).length = twoChunks.length
    ∧ (embedAll embedConstF 1 twoChunks 0).map
        (fun ec => Chunk.mk ec.content ec.metadata) = twoChunks :=
  claim_C4 Provider.localBackend bkOk 3 1 embedConstF twoChunks
    (fun k ts => rfl) (fun k ts => by simp [embedConstF])

theorem genAux_cons {E Err : Type} (prov : Provider) (bk : Backend E Err)
    (maxRetries : Nat) (batchSize : ℕ+) (c : Chunk) (cs : List Chunk)
    (c0 : Nat) :
    genAux prov bk maxRetries batchSize (c :: cs) c0 =
      match processBatch prov bk maxRetries
          ((c :: cs).take (batchSize : Nat)) c0 with
      | (.error e, n, sl) => (.error e, n, sl)
      | (.ok opt, n, sl) =>
        let enriched := match opt with
          | some vs => zipEnrich ((c :: cs).take (batchSize : Nat)) vs
          | none => []
        let r := genAux prov bk maxRetries batchSize
          ((c :: cs).drop (batchSize : Nat)) (c0 + n)
        (r.1.map (fun l => enriched ++ l), n + r.2.1, sl ++ r.2.2) := by
  rw [genAux]

theorem batchTexts_zero (chunks : List Chunk) (batchSize : ℕ+) :
    batchTexts chunks batchSize 0 =
      (chunks.take (batchSize : Nat)).map (fun c => c.content) := by
  simp [batchTexts]

theorem batchTexts_succ (chunks : List Chunk) (batchSize : ℕ+) (k : Nat) :
    batchTexts chunks batchSize (k + 1) =
      batchTexts (chunks.drop (batchSize : Nat)) batchSize k := by
  unfold batchTexts
  rw [List.drop_drop]
  rw [show ((batchSize : Nat) + k * (batchSize : Nat)) =
    (k + 1) * (batchSize : Nat) from by ring]

theorem genAux_local_abort {E Err : Type} (bk : Backend E Err)
    (maxRetries : Nat) (batchSize : ℕ+) (e : Err) :
    ∀ j (chunks : List Chunk) (c0 : Nat) (G : Nat → List E),
      j * (batchSize : Nat) < chunks.length →
      (∀ k < j, bk.call (c0 + k) (batchTexts chunks batchSize k) = .ok (G k)) →
      bk.call (c0 + j) (batchTexts chunks batchSize j) = .error e →
      genAux Provider.localBackend bk maxRetries batchSize chunks c0 =
        (.error e, j + 1, []) := by
  intro j
  induction j with
  | zero =>
      intro chunks c0 G hlt hok hfail
      cases chunks with
      | nil => simp at hlt
      | cons c cs =>
          have hfail0 : bk.call c0 (List.take (batchSize : Nat)
              (c.content :: cs.map (fun x => x.content))) = .error e := by
            simpa [batchTexts_zero] using hfail
          have hpb : processBatch Provider.localBackend bk maxRetries
              ((c :: cs).take (batchSize : Nat)) c0 = (.error e, 1, []) := by
            simp [processBatch, hfail0]
          rw [genAux_cons, hpb]
  | succ j ih =>
      intro chunks c0 G hlt hok hfail
      cases chunks with
      | nil => simp at hlt
      | cons c cs =>
          have h0 : bk.call c0 (List.take (batchSize : Nat)
              (c.content :: cs.map (fun x => x.content))) = .ok (G 0) := by
            simpa [batchTexts_zero] using hok 0 (Nat.succ_pos j)
          have hpb : processBatch Provider.localBackend bk maxRetries
              ((c :: cs).take (batchSize : Nat)) c0 =
              (.ok (some (G 0)), 1, []) := by
            simp [processBatch, h0]
          have hmul : (j + 1) * (batchSize : Nat) =
              j * (batchSize : Nat) + (batchSize : Nat) := by ring
          have hlt2 : j * (batchSize : Nat) <
              ((c :: cs).drop (batchSize : Nat)).length := by
            simp only [List.length_drop, List.length_cons]
            simp only [List.length_cons] at hlt
            omega
          have hok2 : ∀ k < j, bk.call (c0 + 1 + k)
              (batchTexts ((c :: cs).drop (batchSize : Nat)) batchSize k) =
              .ok (G (k + 1)) := by
            intro k hk
            rw [← batchTexts_succ, show c0 + 1 + k = c0 + (k + 1) from by omega]
            exact hok (k + 1) (by omega)
          have hfail2 : bk.call (c0 + 1 + j)
              (batchTexts ((c :: cs).drop (batchSize : Nat)) batchSize j) =
              .error e := by
            rw [← batchTexts_succ, show c0 + 1 + j = c0 + (j + 1) from by omega]
            exact hfail
          have hrec := ih ((c :: cs).drop (batchSize : Nat)) (c0 + 1)
            (fun k => G (k + 1)) hlt2 hok2 hfail2
          rw [genAux_cons, hpb]
          simp only [hrec]
          simp [Except.map]
          omega

/-- Claim C5: with the local provider, a raising embed_documents call aborts
the run at once by re-raising: if the first j batches succeed and the call for
batch j raises e, generate_embeddings returns the error e after exactly j + 1
backend calls (one per batch, none repeated), with zero retry attempts and no
backoff sleeps. -/
theorem claim_C5 {E Err : Type} (bk : Backend E Err) (maxRetries : Nat)
    (batchSize : ℕ+) (chunks : List Chunk) (j : Nat) (G : Nat → List E)
    (e : Err)
    (hlt : j * (batchSize : Nat) < chunks.length)
    (hok : ∀ k < j, bk.call k (batchTexts chunks batchSize k) = .ok (G k))
    (hfail : bk.call j (batchTexts chunks batchSize j) = .error e) :
    generate_embeddings Provider.localBackend bk maxRetries batchSize chunks =
      (.error e, j + 1, []) :=
  genAux_local_abort bk maxRetries batchSize e j chunks 0 G hlt
    (fun k hk => by simpa using hok k hk) (by simpa using hfail)

def bkLocalW : Backend Nat Nat :=
  ⟨fun k _ => if k = 0 then .ok [5] else .error 9⟩

theorem claim_C5_witness :
    generate_embeddings Provider.localBackend bkLocalW 3 1 twoChunks =
      (.error 9, 2, []) :=
  claim_C5 bkLocalW 3 1 twoChunks 1 (fun _ => [5]) 9 (by decide)
    (by intro k hk; interval_cases k; rfl) (by rfl)

theorem range_pow_shift (retry t : Nat) :
    (List.range (t + 1)).map (fun u => 2 ^ (retry + u)) =
      2 ^ retry :: (List.range t).map (fun u => 2 ^ (retry + 1 + u)) := by
  rw [List.range_succ_eq_map]
  simp only [List.map_cons, List.map_map, Nat.add_zero]
  refine congrArg (List.cons (2 ^ retry)) ?_
  refine List.map_congr_left (fun x hx => ?_)
  simp only [Function.comp_apply, Nat.succ_eq_add_one]
  rw [show retry + (x + 1) = retry + 1 + x from by omega]

theorem retryLoop_success {E Err : Type} (bk : Backend E Err)
    (maxRetries : Nat) (texts : List PStr) (vs : List E) :
    ∀ t fuel retry cIdx (Ef : Nat → Err),
      t + 1 ≤ fuel → retry + fuel = maxRetries →
      (∀ u < t, bk.call (cIdx + u) texts = .error (Ef u)) →
      bk.call (cIdx + t) texts = .ok vs →
      retryLoop bk maxRetries texts fuel retry cIdx =
        (.ok (some vs), t + 1,
         (List.range (t + 1)).map (fun u => 2 ^ (retry + u))) := by
  intro t
  induction t with
  | zero =>
      intro fuel retry cIdx Ef hf hr hfails hok
      cases fuel with
      | zero => omega
      | succ f =>
          have hok0 : bk.call cIdx texts = .ok vs := by simpa using hok
          simp [retryLoop, hok0, List.range_succ_eq_map]
  | succ t iht =>
      intro fuel retry cIdx Ef hf hr hfails hok
      cases fuel with
      | zero => omega
      | succ f =>
          have h0 : bk.call cIdx texts = .error (Ef 0) := by
            simpa using hfails 0 (by omega)
          have hne : ¬(retry = maxRetries - 1) := by omega
          simp only [retryLoop, h0, hne, if_false]
          rw [iht f (retry + 1) (cIdx + 1) (fun u => Ef (u + 1)) (by omega)
            (by omega)
            (fun u hu => by
              rw [show cIdx + 1 + u = cIdx + (u + 1) from by omega]
              exact hfails (u + 1) (by omega))
            (by
              rw [show cIdx + 1 + t = cIdx + (t + 1) from by omega]
              exact hok)]
          rw [range_pow_shift retry (t + 1)]

theorem retryLoop_exhaust {E Err : Type} (bk : Backend E Err)
    (maxRetries : Nat) (texts : List PStr) (Ef : Nat → Err)
    (hfails : ∀ u ts, bk.call u ts = .error (Ef u)) :
    ∀ fuel retry cIdx, 1 ≤ fuel → retry + fuel = maxRetries →
      retryLoop bk maxRetries texts fuel retry cIdx =
        (.error (Ef (cIdx + fuel - 1)), fuel,
         (List.range fuel).map (fun u => 2 ^ (retry + u))) := by
  intro fuel
  induction fuel with
  | zero => intro retry cIdx h1 _; omega
  | succ f ihf =>
      intro retry cIdx h1 hr
      by_cases hf0 : f = 0
      · subst hf0
        have hlast : retry = maxRetries - 1 := by omega
        simp [retryLoop, hfails, hlast, List.range_succ_eq_map]
      · have hne : ¬(retry = maxRetries - 1) := by omega
        simp only [retryLoop, hfails, hne, if_false]
        rw [ihf (retry + 1) (cIdx + 1) (by omega) (by omega)]
        rw [range_pow_shift retry f]
        rw [show cIdx + 1 + f - 1 = cIdx + (f + 1) - 1 from by omega]

theorem processBatch_openai_call {E Err : Type} (bk : Backend E Err)
    (maxRetries : Nat) (batch : List Chunk) (c0 : Nat) :
    processBatch Provider.openaiBackend bk maxRetries batch c0 =
      match bk.call c0 (batch.map (fun c => c.content)) with
      | .ok vs => (.ok (some vs), 1, [])
      | .error _ =>
        let r := retryLoop bk maxRetries (batch.map (fun c => c.content))
          maxRetries 0 (c0 + 1)
        (r.1, r.2.1 + 1, r.2.2) := by
  cases hc : bk.call c0 (batch.map (fun c => c.content)) with
  | ok vs => simp [processBatch, hc]
  | error e => simp [processBatch, hc]

theorem genAux_openai_retry_success {E Err : Type} (bk : Backend E Err)
    (m : Nat) (bs : ℕ+) (chunks : List Chunk) (vs : List E) (Ef : Nat → Err)
    (hne : chunks ≠ []) (hbs : chunks.length ≤ (bs : Nat)) (hm : 1 ≤ m)
    (hfails : ∀ k < m - 1,
      bk.call k (chunks.map (fun c => c.content)) = .error (Ef k))
    (hok : bk.call (m - 1) (chunks.map (fun c => c.content)) = .ok vs) :
    generate_embeddings Provider.openaiBackend bk m bs chunks =
      (.ok (zipEnrich chunks vs), m,
       (List.range (m - 1)).map (fun u => 2 ^ u)) := by
  cases chunks with
  | nil => exact absurd rfl hne
  | cons c cs =>
      have htake : (c :: cs).take (bs : Nat) = c :: cs :=
        List.take_of_length_le hbs
      have hdrop : (c :: cs).drop (bs : Nat) = [] :=
        List.drop_eq_nil_of_le hbs
      unfold generate_embeddings
      rw [genAux_cons, processBatch_openai_call, htake]
      by_cases hm1 : m = 1
      · subst hm1
        have hok0 : bk.call 0 ((c :: cs).map (fun x => x.content)) = .ok vs := by
          simpa using hok
        rw [hok0]
        simp [hdrop, genAux, Except.map]
      · have h0 : bk.call 0 ((c :: cs).map (fun x => x.content)) =
            .error (Ef 0) := by
          simpa using hfails 0 (by omega)
        rw [h0]
        rw [retryLoop_success bk m _ vs (m - 2) m 0 1 (fun u => Ef (u + 1))
          (by omega) (by omega)
          (fun u hu => by
            rw [show 1 + u = u + 1 from by omega]
            exact hfails (u + 1) (by omega))
          (by
            rw [show 1 + (m - 2) = m - 1 from by omega]
            exact hok)]
        rw [show m - 2 + 1 = m - 1 from by omega]
        simp only [hdrop]
        rw [show genAux Provider.openaiBackend bk m bs ([] : List Chunk)
          (0 + (m - 1 + 1)) = (.ok [], 0, []) from by simp [genAux]]
        simp [Except.map]
        omega

theorem genAux_openai_exhaust {E Err : Type} (bk : Backend E Err)
    (m : Nat) (bs : ℕ+) (chunks : List Chunk) (Ef : Nat → Err)
    (hne : chunks ≠ []) (hbs : chunks.length ≤ (bs : Nat)) (hm : 1 ≤ m)
    (hfails : ∀ k ts, bk.call k ts = .error (Ef k)) :
    generate_embeddings Provider.openaiBackend bk m bs chunks =
      (.error (Ef m), m + 1, (List.range m).map (fun u => 2 ^ u)) := by
  cases chunks with
  | nil => exact absurd rfl hne
  | cons c cs =>
      have htake : (c :: cs).take (bs : Nat) = c :: cs :=
        List.take_of_length_le hbs
      unfold generate_embeddings
      rw [genAux_cons, processBatch_openai_call, htake, hfails]
      rw [retryLoop_exhaust bk m _ Ef hfails m 0 1 (by omega) (by omega)]
      rw [show 1 + m - 1 = m from by omega]
      simp

/-- Claim C1 (amended): for a single-batch run with the openai provider,
(a) with a backend that fails the first max_retries - 1 calls and then
succeeds, generate_embeddings returns the successful zipped result after
exactly max_retries calls in total, with backoff sleeps of 2^attempt seconds
(attempt = 0 .. max_retries - 2) before each retry; (b) with a backend that
always fails, it raises after max_retries + 1 calls in total -- the initial
call plus max_retries retries, one more than the claim's "exactly
max_retries attempts" -- with sleeps 2^0 .. 2^(max_retries - 1), and attaches
no embeddings for the batch (the run aborts with the error). -/
theorem claim_C1 {E Err : Type} (bk bkF : Backend E Err) (m : Nat) (bs : ℕ+)
    (chunks : List Chunk) (vs : List E) (Ef EfF : Nat → Err)
    (hne : chunks ≠ []) (hbs : chunks.length ≤ (bs : Nat)) (hm : 1 ≤ m)
    (hfailsA : ∀ k < m - 1,
      bk.call k (chunks.map (fun c => c.content)) = .error (Ef k))
    (hokA : bk.call (m - 1) (chunks.map (fun c => c.content)) = .ok vs)
    (hfailsB : ∀ k ts, bkF.call k ts = .error (EfF k)) :
    generate_embeddings Provider.openaiBackend bk m bs chunks =
      (.ok (zipEnrich chunks vs), m,
       (List.range (m - 1)).map (fun u => 2 ^ u))
    ∧ generate_embeddings Provider.openaiBackend bkF m bs chunks =
      (.error (EfF m), m + 1, (List.range m).map (fun u => 2 ^ u)) :=
  ⟨genAux_openai_retry_success bk m bs chunks vs Ef hne hbs hm hfailsA hokA,
   genAux_openai_exhaust bkF m bs chunks EfF hne hbs hm hfailsB⟩

def bkFailAlways : Backend Nat Nat := ⟨fun k _ => .error k⟩

def bkThirdTry : Backend Nat Nat :=
  ⟨fun k _ => if k < 2 then .error k else .ok [7]⟩

def oneChunk : List Chunk := [⟨("x").data, mdSample⟩]

theorem claim_C1_witness :
    generate_embeddings Provider.openaiBackend bkThirdTry 3 1 oneChunk =
      (.ok (zipEnrich oneChunk [7]), 3,
       (List.range 2).map (fun u => 2 ^ u))
    ∧ generate_embeddings Provider.openaiBackend bkFailAlways 3 1 oneChunk =
      (.error 3, 4, (List.range 3).map (fun u => 2 ^ u)) :=
  claim_C1 bkThirdTry bkFailAlways 3 1 oneChunk [7] (fun k => k) (fun k => k)
    (by decide) (by decide) (by decide)
    (by intro k hk; interval_cases k <;> rfl) (by rfl) (fun k ts => rfl)

/-- Claim C1 counterexample: with max_retries = 2 and an always-failing
openai backend on a single-chunk batch, generate_embeddings makes 3 backend
calls (the initial call plus 2 retries) before raising, not the "exactly
max_retries = 2 attempts" the claim states. -/
theorem claim_C1_counterexample :
    (generate_embeddings Provider.openaiBackend bkFailAlways 2 1 oneChunk).2.1
      = 3
    ∧ ¬((generate_embeddings Provider.openaiBackend bkFailAlways 2 1
      oneChunk).2.1 = 2) := by
  have h := genAux_openai_exhaust bkFailAlways 2 1 oneChunk (fun k => k)
    (by decide) (by decide) (by decide) (fun k ts => rfl)
  rw [h]
  exact ⟨rfl, by decide⟩
